import Mathlib

/-!
Shallow embedding of the `stochastic-abm` crate (src/abm.rs).

The crate defines one struct, `ArithmeticBrownianMotion`, holding six model
parameters, a constructor `new` that stores the six arguments verbatim, and a
method `simulate` that produces `n_paths` price paths of `n_steps + 1` values
each by Euler-Maruyama stepping.

The Rust method draws its noise from `rand::thread_rng()`: at each inner-loop
step it computes `d_w = rng.gen::<f64>() * dt.sqrt()`, where `gen::<f64>()`
returns a uniform draw in `[0, 1)`.  We embed the random source as an explicit
stream of draws: `simulate` below takes a function `u : Nat -> Nat -> Real`
giving, for path `i` and step `j`, the value the generator returned for that
step.  Properties of the generator (that each draw lies in `[0, 1)`) enter the
theorems as hypotheses on `u`.

Machine `f64` arithmetic is modelled by real arithmetic; `dt.sqrt()` becomes
`Real.sqrt`.
-/

/-- The struct `ArithmeticBrownianMotion` of src/abm.rs, with its six public
fields. -/
structure ArithmeticBrownianMotion where
  mu : ℝ
  sigma : ℝ
  n_paths : ℕ
  n_steps : ℕ
  t_end : ℝ
  s_0 : ℝ

namespace ArithmeticBrownianMotion

/-- `ArithmeticBrownianMotion::new`: stores the six arguments verbatim, with
no validation. -/
def new (mu sigma : ℝ) (n_paths n_steps : ℕ) (t_end s_0 : ℝ) :
    ArithmeticBrownianMotion :=
  { mu := mu, sigma := sigma, n_paths := n_paths, n_steps := n_steps,
    t_end := t_end, s_0 := s_0 }

/-- The time step size: `let dt = self.t_end / self.n_steps as f64`. -/
noncomputable def dt (abm : ArithmeticBrownianMotion) : ℝ :=
  abm.t_end / (abm.n_steps : ℝ)

/-- The per-step stochastic increment: `let d_w = rng.gen::<f64>() * dt.sqrt()`,
as a function of the generator draw `v`. -/
noncomputable def dW (abm : ArithmeticBrownianMotion) (v : ℝ) : ℝ :=
  v * Real.sqrt abm.dt

/-- The value stored at index `j` of one path after the inner loop:
index 0 keeps the initial fill `s_0`, and
`paths[i][j] = paths[i][j-1] + self.mu * dt + self.sigma * d_w` for
`j in 1..=n_steps` (only indices `j <= n_steps` are ever read from this
function).  `u j` is the generator draw consumed at step `j`. -/
noncomputable def pathVal (abm : ArithmeticBrownianMotion) (u : ℕ → ℝ) :
    ℕ → ℝ
  | 0 => abm.s_0
  | j + 1 => pathVal abm u j + abm.mu * abm.dt + abm.sigma * abm.dW (u (j + 1))

/-- One inner vector of the result: `n_steps + 1` entries, entry `j` holding
`pathVal j`. -/
noncomputable def simPath (abm : ArithmeticBrownianMotion) (u : ℕ → ℝ) :
    List ℝ :=
  (List.range (abm.n_steps + 1)).map (pathVal abm u)

/-- `ArithmeticBrownianMotion::simulate`: the returned `Vec<Vec<f64>>`, as a
function of the per-path, per-step generator draws `u`. -/
noncomputable def simulate (abm : ArithmeticBrownianMotion)
    (u : ℕ → ℕ → ℝ) : List (List ℝ) :=
  (List.range abm.n_paths).map (fun i => simPath abm (u i))

/-!
State-passing rendering of the same method, for the frame property.  The Rust
method takes `&self` and a thread-local generator; here the generator is a
stream `r : Nat -> Real` together with a cursor `k` (the index of the next
unconsumed draw), and the method returns its result together with the
post-call `self` and cursor.  The inner loop consumes one draw per step; the
outer loop runs the inner loop once per path.
-/

/-- The inner loop `for j in 1..=n_steps`, run for `n` remaining steps from
current value `s.1` and cursor `s.2`: returns the list of values written and
the cursor after. -/
noncomputable def stepsS (abm : ArithmeticBrownianMotion) (r : ℕ → ℝ) :
    ℕ → ℝ × ℕ → List ℝ × ℕ
  | 0, s => ([], s.2)
  | n + 1, s =>
    let next := s.1 + abm.mu * abm.dt + abm.sigma * abm.dW (r s.2)
    let rest := stepsS abm r n (next, s.2 + 1)
    (next :: rest.1, rest.2)

/-- The outer loop `for i in 0..n_paths`, run for `n` remaining paths from
cursor `k`: each path starts from the initial fill `s_0`. -/
noncomputable def pathsS (abm : ArithmeticBrownianMotion) (r : ℕ → ℝ) :
    ℕ → ℕ → List (List ℝ) × ℕ
  | 0, k => ([], k)
  | n + 1, k =>
    let first := stepsS abm r abm.n_steps (abm.s_0, k)
    let rest := pathsS abm r n first.2
    ((abm.s_0 :: first.1) :: rest.1, rest.2)

/-- `simulate` in state-passing form: input state is `(self, cursor)`, output
is `(paths, self after the call, cursor after the call)`.  The method body
never assigns to a field of `self`, so the returned configuration is the one
passed in. -/
noncomputable def simulateS (abm : ArithmeticBrownianMotion) (r : ℕ → ℝ)
    (k : ℕ) : List (List ℝ) × ArithmeticBrownianMotion × ℕ :=
  let out := pathsS abm r abm.n_paths k
  (out.1, abm, out.2)

end ArithmeticBrownianMotion

open ArithmeticBrownianMotion

/-- A fixed draw stream used by the concrete witnesses: every draw is `0`,
which lies in `[0, 1)`. -/
noncomputable def u0 : ℕ → ℕ → ℝ := fun _ _ => 0

/-! ### Helper lemmas -/

/-- Entry `i` of the outer result is the path built from the draws `u i`. -/
theorem simulate_getD (abm : ArithmeticBrownianMotion) (u : ℕ → ℕ → ℝ)
    (i : ℕ) (hi : i < abm.n_paths) :
    (abm.simulate u).getD i [] = abm.simPath (u i) := by
  have hlen : i < (abm.simulate u).length := by
    simpa [ArithmeticBrownianMotion.simulate] using hi
  rw [List.getD_eq_getElem _ _ hlen]
  simp [ArithmeticBrownianMotion.simulate]

/-- Entry `j` of one inner vector is `pathVal j`, for `j <= n_steps`. -/
theorem simPath_getD (abm : ArithmeticBrownianMotion) (u : ℕ → ℝ)
    (j : ℕ) (hj : j ≤ abm.n_steps) :
    (abm.simPath u).getD j 0 = abm.pathVal u j := by
  have hlen : j < (abm.simPath u).length := by
    simp [ArithmeticBrownianMotion.simPath]
    omega
  rw [List.getD_eq_getElem _ _ hlen]
  simp [ArithmeticBrownianMotion.simPath]

/-! ### Claims -/

/-- Claim C2: for every configuration with positive `path_count` and
`step_count`, `simulate()` returns exactly `path_count` inner sequences,
each of length exactly `step_count + 1`. -/
theorem simulate_shape (abm : ArithmeticBrownianMotion) (u : ℕ → ℕ → ℝ)
    (hp : 0 < abm.n_paths) (hs : 0 < abm.n_steps) :
    (abm.simulate u).length = abm.n_paths ∧
      ∀ p ∈ abm.simulate u, p.length = abm.n_steps + 1 := by
  constructor
  · simp [ArithmeticBrownianMotion.simulate]
  · intro p hp'
    simp only [ArithmeticBrownianMotion.simulate, List.mem_map] at hp'
    obtain ⟨i, -, rfl⟩ := hp'
    simp [ArithmeticBrownianMotion.simPath]

/-- Witness for C2 at the crate's own test configuration
`new(0.05, 0.4, 50, 200, 1.0, 200.0)`. -/
theorem simulate_shape_witness :
    0 < (new 0.05 0.4 50 200 1 200).n_paths ∧
    0 < (new 0.05 0.4 50 200 1 200).n_steps ∧
    (((new 0.05 0.4 50 200 1 200).simulate u0).length = 50 ∧
      ∀ p ∈ (new 0.05 0.4 50 200 1 200).simulate u0, p.length = 201) :=
  ⟨by decide, by decide,
    simulate_shape (new 0.05 0.4 50 200 1 200) u0 (by decide) (by decide)⟩

/-- Claim C3: every sequence returned by `simulate()` has first element equal
to the configured `initial_value` (`s_0`) exactly. -/
theorem simulate_head (abm : ArithmeticBrownianMotion) (u : ℕ → ℕ → ℝ)
    (p : List ℝ) (hp : p ∈ abm.simulate u) : p.head? = some abm.s_0 := by
  simp only [ArithmeticBrownianMotion.simulate, List.mem_map] at hp
  obtain ⟨i, -, rfl⟩ := hp
  simp [ArithmeticBrownianMotion.simPath, List.range_succ_eq_map,
    ArithmeticBrownianMotion.pathVal]

/-- Witness for C3 at `new(0.1, 0.2, 1, 1, 1.0, 100.0)`. -/
theorem simulate_head_witness :
    (new 0.1 0.2 1 1 1 100).simPath (u0 0) ∈ (new 0.1 0.2 1 1 1 100).simulate u0 ∧
    ((new 0.1 0.2 1 1 1 100).simPath (u0 0)).head? = some (100 : ℝ) := by
  have hmem : (new 0.1 0.2 1 1 1 100).simPath (u0 0) ∈
      (new 0.1 0.2 1 1 1 100).simulate u0 := by
    simp only [ArithmeticBrownianMotion.simulate, List.mem_map]
    exact ⟨0, List.mem_range.mpr (by decide), rfl⟩
  exact ⟨hmem, simulate_head (new 0.1 0.2 1 1 1 100) u0 _ hmem⟩

/-- Claim C4: for every path `p` of the returned collection and every index
`0 <= j < step_count`, the next value is the Euler-Maruyama update of the
previous one by `drift * dt` plus `volatility` times the single scaled noise
draw of that step: `p[j+1] = p[j] + mu * dt + sigma * dW`, with
`dt = t_end / n_steps` and `dW = u i (j+1) * sqrt dt`. -/
theorem simulate_step_recurrence (abm : ArithmeticBrownianMotion)
    (u : ℕ → ℕ → ℝ) (i j : ℕ) (hi : i < abm.n_paths) (hj : j < abm.n_steps) :
    ((abm.simulate u).getD i []).getD (j + 1) 0
      = ((abm.simulate u).getD i []).getD j 0
        + abm.mu * abm.dt + abm.sigma * abm.dW (u i (j + 1)) := by
  rw [simulate_getD abm u i hi, simPath_getD abm (u i) (j + 1) hj,
    simPath_getD abm (u i) j (Nat.le_of_lt hj)]
  simp [ArithmeticBrownianMotion.pathVal]

/-- Witness for C4 at `new(0.05, 0.4, 1, 1, 1.0, 100.0)`, path 0, step 0. -/
theorem simulate_step_recurrence_witness :
    0 < (new 0.05 0.4 1 1 1 100).n_paths ∧ 0 < (new 0.05 0.4 1 1 1 100).n_steps ∧
    (((new 0.05 0.4 1 1 1 100).simulate u0).getD 0 []).getD 1 0
      = (((new 0.05 0.4 1 1 1 100).simulate u0).getD 0 []).getD 0 0
        + (new 0.05 0.4 1 1 1 100).mu * (new 0.05 0.4 1 1 1 100).dt
        + (new 0.05 0.4 1 1 1 100).sigma * (new 0.05 0.4 1 1 1 100).dW (u0 0 1) :=
  ⟨by decide, by decide,
    simulate_step_recurrence (new 0.05 0.4 1 1 1 100) u0 0 0 (by decide) (by decide)⟩

/-- Claim C5: with `volatility = 0`, `simulate()` is deterministic: every path
value is `initial_value + drift * j * dt`, whatever the generator draws. -/
theorem pathVal_sigma_zero (abm : ArithmeticBrownianMotion) (u : ℕ → ℝ)
    (h : abm.sigma = 0) :
    ∀ j : ℕ, abm.pathVal u j = abm.s_0 + abm.mu * j * abm.dt := by
  intro j
  induction j with
  | zero => simp [ArithmeticBrownianMotion.pathVal]
  | succ j ih =>
    simp only [ArithmeticBrownianMotion.pathVal, ih, h, zero_mul, add_zero,
      Nat.cast_succ]
    ring

/-- Witness for C5: the spec's concrete scenario
`new(0.05, 0.0, 1, 4, 1.0, 100.0)` yields the single path
`[100.0, 100.0125, 100.025, 100.0375, 100.05]`. -/
theorem pathVal_sigma_zero_witness :
    (new 0.05 0 1 4 1 100).sigma = 0 ∧
    (new 0.05 0 1 4 1 100).simulate u0
      = [[100, 100.0125, 100.025, 100.0375, 100.05]] := by
  refine ⟨rfl, ?_⟩
  have h := pathVal_sigma_zero (new 0.05 0 1 4 1 100) (u0 0) rfl
  have hnp : (new 0.05 0 1 4 1 100).n_paths = 1 := rfl
  have hns : (new 0.05 0 1 4 1 100).n_steps = 4 := rfl
  have hr5 : List.range 5 = [0, 1, 2, 3, 4] := rfl
  have hr1 : List.range 1 = [0] := rfl
  simp only [ArithmeticBrownianMotion.simulate, ArithmeticBrownianMotion.simPath,
    hnp, hns, Nat.reduceAdd, hr5, hr1, List.map_cons, List.map_nil]
  rw [h 0, h 1, h 2, h 3, h 4]
  norm_num [ArithmeticBrownianMotion.dt, new]

/-- Claim C1 (evidence of the defect): the stochastic increment the code uses
is exactly `d_w = v * sqrt dt` for the raw generator draw `v`, and since
`rng.gen::<f64>()` yields `v` in `[0, 1)`, the increment is nonnegative
whenever `v` is.  A draw from a normal distribution with mean 0 takes negative
values, so `d_w` is a uniform draw scaled by `sqrt dt`, not a normally
distributed increment as the doc comment (`d_w` is a Wiener process increment)
and the spec require. -/
theorem dW_nonneg (abm : ArithmeticBrownianMotion) (v : ℝ) (hv : 0 ≤ v) :
    abm.dW v = v * Real.sqrt abm.dt ∧ 0 ≤ abm.dW v :=
  ⟨rfl, mul_nonneg hv (Real.sqrt_nonneg _)⟩

/-- Witness for C1's evidence theorem at `new(0.0, 1.0, 1, 1, 1.0, 0.0)` and
draw `0`. -/
theorem dW_nonneg_witness :
    (0 : ℝ) ≤ 0 ∧
    ((new 0 1 1 1 1 0).dW 0 = 0 * Real.sqrt (new 0 1 1 1 1 0).dt ∧
      0 ≤ (new 0 1 1 1 1 0).dW 0) :=
  ⟨le_refl 0, dW_nonneg (new 0 1 1 1 1 0) 0 (le_refl 0)⟩

/-- Counterexample to C6: at `step_count = 0` (a configuration the claim says
must fail with a ConfigurationError), construction succeeds and `simulate()`
returns normally, with the singleton path `[initial_value]`. -/
theorem simulate_no_failure_cex :
    (new 0.05 0.4 1 0 1 100).simulate u0 = [[100]] := rfl

/-- Claim C6 amended: the code performs no validation — for `step_count = 0`,
`path_count = 0`, or `horizon <= 0`, construction and `simulate()` both
succeed, and `simulate()` still returns `path_count` sequences of length
`step_count + 1`. -/
theorem simulate_invalid_config_total (mu sigma : ℝ) (np ns : ℕ) (te s0 : ℝ)
    (u : ℕ → ℕ → ℝ) (h : ns = 0 ∨ np = 0 ∨ te ≤ 0) :
    ((new mu sigma np ns te s0).simulate u).length = np ∧
      ∀ p ∈ (new mu sigma np ns te s0).simulate u, p.length = ns + 1 := by
  constructor
  · simp [ArithmeticBrownianMotion.simulate, ArithmeticBrownianMotion.new]
  · intro p hp
    simp only [ArithmeticBrownianMotion.simulate, List.mem_map] at hp
    obtain ⟨i, -, rfl⟩ := hp
    simp [ArithmeticBrownianMotion.simPath, ArithmeticBrownianMotion.new]

/-- Witness for the amended C6 at `new(0.05, 0.4, 3, 0, 1.0, 100.0)`. -/
theorem simulate_invalid_config_total_witness :
    ((0 : ℕ) = 0 ∨ (3 : ℕ) = 0 ∨ (1 : ℝ) ≤ 0) ∧
    (((new 0.05 0.4 3 0 1 100).simulate u0).length = 3 ∧
      ∀ p ∈ (new 0.05 0.4 3 0 1 100).simulate u0, p.length = 0 + 1) :=
  ⟨Or.inl rfl, simulate_invalid_config_total 0.05 0.4 3 0 1 100 u0 (Or.inl rfl)⟩

/-- The inner loop advances the generator cursor by exactly one per step. -/
theorem stepsS_cursor (abm : ArithmeticBrownianMotion) (r : ℕ → ℝ) :
    ∀ (n : ℕ) (s : ℝ × ℕ), (abm.stepsS r n s).2 = s.2 + n := by
  intro n
  induction n with
  | zero => intro s; simp [ArithmeticBrownianMotion.stepsS]
  | succ n ih =>
    intro s
    simp only [ArithmeticBrownianMotion.stepsS, ih]
    omega

/-- The outer loop advances the generator cursor by `n_steps` per path. -/
theorem pathsS_cursor (abm : ArithmeticBrownianMotion) (r : ℕ → ℝ) :
    ∀ (n k : ℕ), (abm.pathsS r n k).2 = k + n * abm.n_steps := by
  intro n
  induction n with
  | zero => intro k; simp [ArithmeticBrownianMotion.pathsS]
  | succ n ih =>
    intro k
    simp only [ArithmeticBrownianMotion.pathsS, ih, stepsS_cursor]
    rw [Nat.succ_mul]
    omega

/-- Claim C7: a call to `simulate()` leaves the simulator's configuration
unchanged — the post-call `self` equals the pre-call `self` — and its only
state effect is consuming exactly `n_paths * n_steps` draws from the
generator stream. -/
theorem simulateS_frame (abm : ArithmeticBrownianMotion) (r : ℕ → ℝ)
    (k : ℕ) :
    (abm.simulateS r k).2.1 = abm ∧
      (abm.simulateS r k).2.2 = k + abm.n_paths * abm.n_steps := by
  refine ⟨rfl, ?_⟩
  simp [ArithmeticBrownianMotion.simulateS, pathsS_cursor]

/-- Claim C8: construction never fails and stores all six arguments verbatim
in the corresponding fields. -/
theorem new_fields (mu sigma : ℝ) (np ns : ℕ) (te s0 : ℝ) :
    (new mu sigma np ns te s0).mu = mu ∧
    (new mu sigma np ns te s0).sigma = sigma ∧
    (new mu sigma np ns te s0).n_paths = np ∧
    (new mu sigma np ns te s0).n_steps = ns ∧
    (new mu sigma np ns te s0).t_end = te ∧
    (new mu sigma np ns te s0).s_0 = s0 :=
  ⟨rfl, rfl, rfl, rfl, rfl, rfl⟩

/-- Counterexample to C9: with `volatility = 0` (allowed by the claim's
hypothesis `volatility >= 0`), the half-open interval
`[drift * dt, drift * dt + volatility * sqrt dt)` is empty, so the step
increment — which equals `drift * dt` — does not lie strictly below the upper
bound.  Configuration `new(0.05, 0.0, 1, 4, 1.0, 100.0)`, path 0, step 0,
draw `0` in `[0, 1)`. -/
theorem increment_interval_cex :
    (0 : ℝ) < (new 0.05 0 1 4 1 100).t_end ∧
    0 < (new 0.05 0 1 4 1 100).n_steps ∧
    (0 : ℝ) ≤ (new 0.05 0 1 4 1 100).sigma ∧
    (0 : ℝ) ≤ u0 0 1 ∧ u0 0 1 < 1 ∧
    ¬ ((((new 0.05 0 1 4 1 100).simulate u0).getD 0 []).getD 1 0
          - (((new 0.05 0 1 4 1 100).simulate u0).getD 0 []).getD 0 0
        < (new 0.05 0 1 4 1 100).mu * (new 0.05 0 1 4 1 100).dt
          + (new 0.05 0 1 4 1 100).sigma * Real.sqrt (new 0.05 0 1 4 1 100).dt) := by
  refine ⟨by norm_num [ArithmeticBrownianMotion.new], by decide,
    le_refl 0, le_refl 0, by norm_num [u0], ?_⟩
  rw [simulate_getD _ u0 0 (by decide), simPath_getD _ _ 1 (by decide),
    simPath_getD _ _ 0 (by decide)]
  norm_num [ArithmeticBrownianMotion.pathVal, ArithmeticBrownianMotion.dW,
    ArithmeticBrownianMotion.new, u0]

/-- Claim C9 amended: with `horizon > 0`, `step_count > 0` and
`volatility > 0` (strictly), every generator draw in `[0, 1)` puts the step
increment in `[drift * dt, drift * dt + volatility * sqrt dt)`; in
particular it is never below `drift * dt`. -/
theorem simulate_increment_bounds (abm : ArithmeticBrownianMotion)
    (u : ℕ → ℕ → ℝ) (i j : ℕ) (hi : i < abm.n_paths) (hj : j < abm.n_steps)
    (ht : 0 < abm.t_end) (hsig : 0 < abm.sigma)
    (hv0 : 0 ≤ u i (j + 1)) (hv1 : u i (j + 1) < 1) :
    abm.mu * abm.dt
        ≤ ((abm.simulate u).getD i []).getD (j + 1) 0
          - ((abm.simulate u).getD i []).getD j 0 ∧
    ((abm.simulate u).getD i []).getD (j + 1) 0
        - ((abm.simulate u).getD i []).getD j 0
      < abm.mu * abm.dt + abm.sigma * Real.sqrt abm.dt := by
  have hdt : 0 < abm.dt := by
    have hns : (0 : ℝ) < (abm.n_steps : ℝ) :=
      Nat.cast_pos.mpr (lt_of_le_of_lt (Nat.zero_le j) hj)
    exact div_pos ht hns
  have hsqrt : 0 < Real.sqrt abm.dt := Real.sqrt_pos.mpr hdt
  rw [simulate_getD abm u i hi, simPath_getD abm (u i) (j + 1) hj,
    simPath_getD abm (u i) j (Nat.le_of_lt hj)]
  have hdiff : abm.pathVal (u i) (j + 1) - abm.pathVal (u i) j
      = abm.mu * abm.dt + abm.sigma * (u i (j + 1) * Real.sqrt abm.dt) := by
    simp only [ArithmeticBrownianMotion.pathVal, ArithmeticBrownianMotion.dW]
    ring
  rw [hdiff]
  constructor
  · exact le_add_of_nonneg_right
      (mul_nonneg hsig.le (mul_nonneg hv0 hsqrt.le))
  · exact add_lt_add_left
      (mul_lt_mul_of_pos_left ((mul_lt_iff_lt_one_left hsqrt).mpr hv1) hsig) _

/-- Witness for the amended C9 at `new(0.05, 0.4, 1, 4, 1.0, 100.0)`,
path 0, step 0, draw `0`. -/
theorem simulate_increment_bounds_witness :
    0 < (new 0.05 0.4 1 4 1 100).n_paths ∧ 0 < (new 0.05 0.4 1 4 1 100).n_steps ∧
    (0 : ℝ) < (new 0.05 0.4 1 4 1 100).t_end ∧
    (0 : ℝ) < (new 0.05 0.4 1 4 1 100).sigma ∧
    (0 : ℝ) ≤ u0 0 1 ∧ u0 0 1 < 1 ∧
    ((new 0.05 0.4 1 4 1 100).mu * (new 0.05 0.4 1 4 1 100).dt
        ≤ (((new 0.05 0.4 1 4 1 100).simulate u0).getD 0 []).getD 1 0
          - (((new 0.05 0.4 1 4 1 100).simulate u0).getD 0 []).getD 0 0 ∧
      (((new 0.05 0.4 1 4 1 100).simulate u0).getD 0 []).getD 1 0
          - (((new 0.05 0.4 1 4 1 100).simulate u0).getD 0 []).getD 0 0
        < (new 0.05 0.4 1 4 1 100).mu * (new 0.05 0.4 1 4 1 100).dt
          + (new 0.05 0.4 1 4 1 100).sigma * Real.sqrt (new 0.05 0.4 1 4 1 100).dt) :=
  ⟨by decide, by decide, by norm_num [ArithmeticBrownianMotion.new],
    by norm_num [ArithmeticBrownianMotion.new], le_refl 0, by norm_num [u0],
    simulate_increment_bounds (new 0.05 0.4 1 4 1 100) u0 0 0 (by decide)
      (by decide) (by norm_num [ArithmeticBrownianMotion.new])
      (by norm_num [ArithmeticBrownianMotion.new]) (le_refl 0)
      (by norm_num [u0])⟩

/-- Claim C10: with `step_count = 0`, `simulate()` does not fail and returns
`path_count` copies of the singleton `[initial_value]` — the step loop body
never runs, so no arithmetic on `dt` enters the output. -/
theorem simulate_zero_steps (mu sigma : ℝ) (np : ℕ) (te s0 : ℝ)
    (u : ℕ → ℕ → ℝ) :
    (new mu sigma np 0 te s0).simulate u = List.replicate np [s0] := by
  have h1 : ∀ i, (new mu sigma np 0 te s0).simPath (u i) = [s0] := fun i => rfl
  simp only [ArithmeticBrownianMotion.simulate, h1]
  have h2 : (new mu sigma np 0 te s0).n_paths = np := rfl
  rw [h2]
  clear h1 h2
  induction np with
  | zero => rfl
  | succ n ih => rw [List.range_succ, List.map_append, ih]; simp [List.replicate_succ']
